import Mathlib

/-!
Verification of go-chef (`main.go`): the Prepare phase (walk, import
extraction, constraint grouping, recipe serialization) and the Cook phase
(synthetic file generation, build invocation, cleanup), shallowly embedded
in Lean.  External collaborators (go/parser, strconv, modfile, fs.WalkDir,
the `go build` child process, os file primitives) appear as inputs/oracles
at the exact boundaries where the Go code consumes their results.
-/

set_option autoImplicit false

namespace GoChef

/-- Models Go `strings.HasPrefix(s, pre)`: byte-wise leading-match test
(on `.data`, since all strings involved are plain text). -/
def strStartsWith (s pre : String) : Bool :=
  pre.data.isPrefixOf s.data

/-- Models Go `strings.TrimPrefix(s, pre)`: drops the leading occurrence of
`pre` when present, otherwise returns `s` unchanged. -/
def strTrimLead (s pre : String) : String :=
  if strStartsWith s pre then String.mk (s.data.drop pre.data.length) else s

/-- The result of `parser.ParseFile(fset, path, nil, ImportsOnly|ParseComments)`
for one candidate file: the file's comment groups (`file.Comments`, each group a
list of the comment texts `c.Text`, in source order) and the file's import
paths (`file.Imports` with each `spec.Path.Value` already passed through
`strconv.Unquote`), in source order.  go/parser and strconv are Go stdlib;
a file on which parsing (or unquoting) fails is represented as an
`Except.error` at the walk level (`addFileResults`). -/
structure ParsedFile where
  comments : List (List String)
  imports : List String
deriving DecidableEq

/-- Inner loop of `extractBuildConstraints` (main.go:242-247): scan the
comments of one group, returning the trimmed text of the first comment
carrying the `//go:build ` marker. -/
def findBuild : List String → Option String
  | [] => none
  | c :: rest =>
    if strStartsWith c "//go:build " then some (strTrimLead c "//go:build ")
    else findBuild rest

/-- Outer loop of `extractBuildConstraints`: scan the comment groups in order,
returning the first hit. -/
def findBuildGroups : List (List String) → Option String
  | [] => none
  | g :: rest =>
    match findBuild g with
    | some s => some s
    | none => findBuildGroups rest

/-- `extractBuildConstraints` (main.go:240-250): the first comment line in any
of the file's comment groups that starts with `//go:build ` yields the text
after that marker; with no such line the file is unconditional (empty
string). -/
def extractBuildConstraints (file : ParsedFile) : String :=
  (findBuildGroups file.comments).getD ""

/-- `importsBuilder` (main.go:192-195).  The Go map `imports` (constraint
expression to set of packages) is modelled as its key set together with a
total function defaulting to `∅`: reading a missing key yields Go's nil map,
which `addFile` immediately replaces by an empty one, so both read as `∅`. -/
structure ImportsBuilder where
  modPref : String
  keys : Finset String
  imports : String → Finset String

/-- `newImportsBuilder` (main.go:197-202): records `modName ++ "/"` as the
self-import marker and starts with an empty map. -/
def newImportsBuilder (modName : String) : ImportsBuilder :=
  { modPref := modName ++ "/", keys := ∅, imports := fun _ => ∅ }

/-- `addFile` (main.go:204-237), after the parse boundary: a file with no
imports is skipped entirely (fast path, line 212); otherwise the file's
constraint expression is extracted and every import not carrying the
module's `modName ++ "/"` marker is inserted into that expression's package
set (created on first use, and registered in the map even when every import
of the file is filtered out). -/
def addFile (b : ImportsBuilder) (file : ParsedFile) : ImportsBuilder :=
  if file.imports = [] then b
  else
    { modPref := b.modPref
      keys := insert (extractBuildConstraints file) b.keys
      imports := Function.update b.imports (extractBuildConstraints file)
        (b.imports (extractBuildConstraints file) ∪
          (file.imports.filter fun pkg => !strStartsWith pkg b.modPref).toFinset) }

/-- `importGroup` (main.go:58-61). -/
structure ImportGroup where
  buildConstraints : String
  packages : List String
deriving DecidableEq

/-- `importsBuilder.importGroups` (main.go:252-277): for each map entry, the
package set sorted ascending (`slices.Sort`), and the group list sorted by
`BuildConstraints`.  Go iterates the map in unspecified order and then sorts
with a comparator returning -1 exactly on strictly-smaller; since map keys
are distinct this orders the groups strictly ascending by constraint, which
equals mapping over the sorted key list. -/
def ImportsBuilder.importGroups (b : ImportsBuilder) : List ImportGroup :=
  (b.keys.sort (· ≤ ·)).map fun bc =>
    { buildConstraints := bc, packages := (b.imports bc).sort (· ≤ ·) }

/-- `recipe` (main.go:52-56): the serialized artifact's content — import
groups plus the verbatim go.mod and go.sum texts.  `json.Marshal` (stdlib)
is deterministic on this structure, so byte-identity of the artifact is
equality of `Recipe` values. -/
structure Recipe where
  importGroups : List ImportGroup
  goMod : String
  goSum : String
deriving DecidableEq

/-- The builder state after feeding every (successfully parsed) candidate
file of the walk, in visitation order. -/
def buildImports (modName : String) (files : List ParsedFile) : ImportsBuilder :=
  files.foldl addFile (newImportsBuilder modName)

/-- The walk loop of `runPrepare` (main.go:150-173): candidate files are fed
to `addFile` in visitation order and the first per-file failure (parse or
unquote error) aborts the whole walk with that error. -/
def addFileResults : ImportsBuilder → List (Except String ParsedFile) → Except String ImportsBuilder
  | b, [] => .ok b
  | _, .error e :: _ => .error e
  | b, .ok f :: rest => addFileResults (addFile b f) rest

/-- `runPrepare` (main.go:128-190): `modName` is the module path obtained by
`modfile.Parse` (stdlib) from the go.mod text, `goMod`/`goSum` are the
verbatim texts read from disk, and `walked` lists the per-file parse results
for the non-hidden `.go` files in walk order.  The recipe is written to the
output path (main.go:185) only in the `.ok` case; an error result means the
output path is never touched. -/
def runPrepare (modName goMod goSum : String) (walked : List (Except String ParsedFile)) :
    Except String Recipe :=
  (addFileResults (newImportsBuilder modName) walked).map fun b =>
    { importGroups := b.importGroups, goMod := goMod, goSum := goSum }

/-- One synthetic source file generated by Cook (main.go:81-106), in
structured form: its name (`main.go` for index 0, else `main<i>.go`), its
optional `//go:build` header (present exactly when written at line 91-93),
the declared package clause, the packages imported under the blank
identifier `_` (line 96-98), and whether the `func main` entry point was
appended (line 100-102).  `renderSynth` gives the exact file text. -/
structure SynthFile where
  filename : String
  buildHeader : Option String
  pkgName : String
  blankImports : List String
  hasEntryPoint : Bool
deriving DecidableEq

/-- The body of Cook's generation loop (main.go:81-106) for group `g` at
index `i`. -/
def cookFile (i : Nat) (g : ImportGroup) : SynthFile :=
  { filename := if i = 0 then "main.go" else "main" ++ toString i ++ ".go"
    buildHeader := if g.buildConstraints = "" then none else some g.buildConstraints
    pkgName := "main"
    blankImports := g.packages
    hasEntryPoint := i == 0 }

/-- Cook's generation loop, from index `i` on. -/
def cookFilesAux (i : Nat) : List ImportGroup → List SynthFile
  | [] => []
  | g :: rest => cookFile i g :: cookFilesAux (i + 1) rest

/-- All synthetic files Cook generates for a recipe (`goFiles` with their
contents, main.go:80-106). -/
def cookFiles (r : Recipe) : List SynthFile :=
  cookFilesAux 0 r.importGroups

/-- Escaping of one character under Go's `%q` for the quote and backslash
characters; other characters of the plain ASCII import paths this tool
handles are emitted verbatim. -/
def quoteChar (c : Char) : List Char :=
  if c = '"' || c = '\\' then ['\\', c] else [c]

/-- Models `fmt.Sprintf("%q", s)` (strconv.Quote, Go stdlib) on plain ASCII
package paths: wrap in double quotes, escaping quote and backslash. -/
def goQuote (s : String) : String :=
  String.mk ('"' :: (s.data.map quoteChar).flatten ++ ['"'])

/-- The exact text of a generated file, mirroring the byte appends of
main.go:90-102. -/
def renderSynth (f : SynthFile) : String :=
  (match f.buildHeader with
   | some bc => "//go:build " ++ bc ++ "\n\n"
   | none => "")
  ++ "package " ++ f.pkgName ++ "\n\nimport (\n"
  ++ String.join (f.blankImports.map fun imp => "\t_ " ++ goQuote imp ++ "\n")
  ++ ")\n"
  ++ (if f.hasEntryPoint then "\nfunc main() \x7b\x7d\n" else "")

/-- The working directory, as name/content pairs with the newest write
first. -/
abbrev FS := List (String × String)

/-- `os.WriteFile` (create or truncate): the new content shadows any older
entry for the same name. -/
def fsWrite (fs : FS) (name content : String) : FS :=
  (name, content) :: fs

/-- `os.Remove`: every entry for the name disappears. -/
def fsRemove (fs : FS) (name : String) : FS :=
  fs.filter fun e => e.1 != name

/-- Reading a path: the newest entry for the name, if any. -/
def fsLookup (fs : FS) (name : String) : Option String :=
  (fs.find? fun e => e.1 == name).map (·.2)

/-- The errors Cook can return after the inputs are written: a non-zero exit
of the external build command (main.go:117-119), or the `errors.Join` of the
per-file `os.Remove` failures (main.go:121-125), carrying the files whose
removal failed, in order. -/
inductive CookError where
  | buildError
  | cleanupError (failed : List String)
deriving DecidableEq

/-- One iteration of Cook's cleanup loop (main.go:122-124): try to remove
the file; a failure is appended to the collected errors (`errors.Join` keeps
only the non-nil ones) and does not stop the loop. -/
def removeStep (removeOk : String → Bool) (acc : FS × List String) (name : String) :
    FS × List String :=
  if removeOk name then (fsRemove acc.1 name, acc.2) else (acc.1, acc.2 ++ [name])

/-- `runCook` (main.go:63-126) after the recipe is read and decoded: write
go.mod and go.sum verbatim (lines 74-79), generate the synthetic files
(lines 80-106), run the external build command — its exit status is the
oracle `buildOk` — and, only when the build succeeded, remove every
generated file, joining the removal failures (`removeOk` is the os.Remove
outcome oracle).  Per lines 117-119 a failed build returns immediately,
before the cleanup loop. -/
def runCook (fs0 : FS) (r : Recipe) (buildOk : Bool) (removeOk : String → Bool) :
    FS × Option CookError :=
  let fs1 := fsWrite fs0 "go.mod" r.goMod
  let fs2 := fsWrite fs1 "go.sum" r.goSum
  let files := cookFiles r
  let fs3 := files.foldl (fun fs f => fsWrite fs f.filename (renderSynth f)) fs2
  if buildOk then
    let res := (files.map (·.filename)).foldl (removeStep removeOk) (fs3, [])
    (res.1, if res.2 = [] then none else some (.cleanupError res.2))
  else
    (fs3, some .buildError)

/-- Modelled from the spec: the claim of §4.2 reads the constraint off "the
file's top comment group" only.  This definition follows those words — it
consults only the first (leading) comment group — and exists solely to be
compared with the source's `extractBuildConstraints`, which scans all
groups. -/
def extractTopGroupOnly (file : ParsedFile) : String :=
  match file.comments with
  | [] => ""
  | g :: _ => (findBuild g).getD ""

/-! ### Basic lemmas about the string helpers and the builder -/

lemma strStartsWith_iff {s pre : String} :
    strStartsWith s pre = true ↔ pre.data <+: s.data := by
  simp [strStartsWith]

lemma strStartsWith_bare (M : String) : strStartsWith M (M ++ "/") = false := by
  rw [Bool.eq_false_iff]
  intro h
  have hp := strStartsWith_iff.mp h
  have hlen := hp.length_le
  rw [String.data_append] at hlen
  simp at hlen

lemma modPref_addFile (b : ImportsBuilder) (f : ParsedFile) :
    (addFile b f).modPref = b.modPref := by
  unfold addFile
  split <;> rfl

lemma modPref_foldl (files : List ParsedFile) (b : ImportsBuilder) :
    (files.foldl addFile b).modPref = b.modPref := by
  induction files generalizing b with
  | nil => rfl
  | cons f rest ih => rw [List.foldl_cons, ih, modPref_addFile]

lemma mem_imports_addFile {b : ImportsBuilder} {f : ParsedFile} {c p : String} :
    p ∈ (addFile b f).imports c ↔
      p ∈ b.imports c ∨
        (extractBuildConstraints f = c ∧ p ∈ f.imports ∧
          strStartsWith p b.modPref = false) := by
  unfold addFile
  by_cases himp : f.imports = []
  · simp [himp]
  · simp only [if_neg himp]
    by_cases hc : extractBuildConstraints f = c
    · subst hc
      simp [Function.update_same, List.mem_filter]
    · rw [Function.update_noteq (fun h => hc h.symm)]
      simp [hc]

lemma mem_keys_addFile {b : ImportsBuilder} {f : ParsedFile} {c : String} :
    c ∈ (addFile b f).keys ↔
      c ∈ b.keys ∨ (f.imports ≠ [] ∧ extractBuildConstraints f = c) := by
  unfold addFile
  by_cases himp : f.imports = []
  · simp [himp]
  · simp only [if_neg himp, Finset.mem_insert]
    constructor
    · rintro (h | h)
      · exact Or.inr ⟨himp, h.symm⟩
      · exact Or.inl h
    · rintro (h | ⟨-, h⟩)
      · exact Or.inr h
      · exact Or.inl h.symm

lemma mem_imports_foldl (files : List ParsedFile) (b : ImportsBuilder) (c p : String) :
    p ∈ (files.foldl addFile b).imports c ↔
      p ∈ b.imports c ∨
        ∃ f ∈ files, extractBuildConstraints f = c ∧ p ∈ f.imports ∧
          strStartsWith p b.modPref = false := by
  induction files generalizing b with
  | nil => simp
  | cons f rest ih =>
    rw [List.foldl_cons, ih (addFile b f), mem_imports_addFile, modPref_addFile]
    simp only [List.mem_cons]
    constructor
    · rintro ((h | h) | ⟨g, hg, h⟩)
      · exact Or.inl h
      · exact Or.inr ⟨f, Or.inl rfl, h⟩
      · exact Or.inr ⟨g, Or.inr hg, h⟩
    · rintro (h | ⟨g, (rfl | hg), h⟩)
      · exact Or.inl (Or.inl h)
      · exact Or.inl (Or.inr h)
      · exact Or.inr ⟨g, hg, h⟩

lemma mem_keys_foldl (files : List ParsedFile) (b : ImportsBuilder) (c : String) :
    c ∈ (files.foldl addFile b).keys ↔
      c ∈ b.keys ∨
        ∃ f ∈ files, f.imports ≠ [] ∧ extractBuildConstraints f = c := by
  induction files generalizing b with
  | nil => simp
  | cons f rest ih =>
    rw [List.foldl_cons, ih (addFile b f), mem_keys_addFile]
    simp only [List.mem_cons]
    constructor
    · rintro ((h | h) | ⟨g, hg, h⟩)
      · exact Or.inl h
      · exact Or.inr ⟨f, Or.inl rfl, h⟩
      · exact Or.inr ⟨g, Or.inr hg, h⟩
    · rintro (h | ⟨g, (rfl | hg), h⟩)
      · exact Or.inl (Or.inl h)
      · exact Or.inl (Or.inr h)
      · exact Or.inr ⟨g, hg, h⟩

lemma mem_imports_buildImports {M : String} {files : List ParsedFile} {c p : String} :
    p ∈ (buildImports M files).imports c ↔
      ∃ f ∈ files, extractBuildConstraints f = c ∧ p ∈ f.imports ∧
        strStartsWith p (M ++ "/") = false := by
  rw [buildImports, mem_imports_foldl]
  simp [newImportsBuilder]

lemma mem_keys_buildImports {M : String} {files : List ParsedFile} {c : String} :
    c ∈ (buildImports M files).keys ↔
      ∃ f ∈ files, f.imports ≠ [] ∧ extractBuildConstraints f = c := by
  rw [buildImports, mem_keys_foldl]
  simp [newImportsBuilder]

lemma mem_importGroups {b : ImportsBuilder} {g : ImportGroup} :
    g ∈ b.importGroups ↔
      ∃ c ∈ b.keys,
        g = { buildConstraints := c, packages := (b.imports c).sort (· ≤ ·) } := by
  simp only [ImportsBuilder.importGroups, List.mem_map, Finset.mem_sort]
  constructor
  · rintro ⟨c, hc, rfl⟩
    exact ⟨c, hc, rfl⟩
  · rintro ⟨c, hc, rfl⟩
    exact ⟨c, hc, rfl⟩

lemma mem_packages_of_mem_importGroups {b : ImportsBuilder} {g : ImportGroup}
    (hg : g ∈ b.importGroups) {p : String} :
    p ∈ g.packages ↔ p ∈ b.imports g.buildConstraints := by
  rcases mem_importGroups.mp hg with ⟨c, -, rfl⟩
  simp [Finset.mem_sort]

lemma addFile_nil (b : ImportsBuilder) {f : ParsedFile} (h : f.imports = []) :
    addFile b f = b := by
  rw [addFile, if_pos h]

/-- C9: a walked file with at least one import always registers its
constraint expression as a group key (even when every import is excluded as
an intra-module self-import, in which case the group can end up with an
empty package list), while a file with zero imports leaves the builder
completely unchanged. -/
theorem prepare_registers_constraint_of_importing_file (M : String)
    (files : List ParsedFile) :
    (∀ f ∈ files, f.imports ≠ [] →
      ∃ g ∈ (buildImports M files).importGroups,
        g.buildConstraints = extractBuildConstraints f)
    ∧ (∀ (b : ImportsBuilder) (f : ParsedFile), f.imports = [] → addFile b f = b)
    ∧ (∀ f ∈ files, f.imports ≠ [] →
        (∀ fl ∈ files,
          extractBuildConstraints fl = extractBuildConstraints f →
          ∀ p ∈ fl.imports, strStartsWith p (M ++ "/") = true) →
        ∃ g ∈ (buildImports M files).importGroups,
          g.buildConstraints = extractBuildConstraints f ∧ g.packages = []) := by
  have hreg : ∀ f ∈ files, f.imports ≠ [] →
      extractBuildConstraints f ∈ (buildImports M files).keys :=
    fun f hf hne => mem_keys_buildImports.mpr ⟨f, hf, hne, rfl⟩
  refine ⟨?_, fun b f h => addFile_nil b h, ?_⟩
  · intro f hf hne
    exact ⟨_, mem_importGroups.mpr ⟨_, hreg f hf hne, rfl⟩, rfl⟩
  · intro f hf hne hall
    have hempty : (buildImports M files).imports (extractBuildConstraints f) = ∅ := by
      rw [Finset.eq_empty_iff_forall_not_mem]
      intro p hp
      obtain ⟨fl, hfl, hcfl, hpfl, hfalse⟩ := mem_imports_buildImports.mp hp
      rw [hall fl hfl hcfl p hpfl] at hfalse
      simp at hfalse
    refine ⟨_, mem_importGroups.mpr ⟨_, hreg f hf hne, rfl⟩, rfl, ?_⟩
    rw [hempty]
    exact Finset.sort_empty _

/-- Witness for C9: a single `linux`-constrained file whose only import is
the self-import `m/a` under module `m` yields a recipe containing the group
keyed `linux` with an empty package list. -/
theorem prepare_registers_constraint_of_importing_file_witness :
    ∃ g ∈ (buildImports "m" [⟨[["//go:build linux"]], ["m/a"]⟩]).importGroups,
      g.buildConstraints = extractBuildConstraints ⟨[["//go:build linux"]], ["m/a"]⟩ ∧
        g.packages = [] :=
  (prepare_registers_constraint_of_importing_file "m"
      [⟨[["//go:build linux"]], ["m/a"]⟩]).2.2
    _ (by simp) (by simp) (by decide)

lemma findBuild_append (l₁ l₂ : List String) :
    findBuild (l₁ ++ l₂) =
      match findBuild l₁ with
      | some s => some s
      | none => findBuild l₂ := by
  induction l₁ with
  | nil => rfl
  | cons c rest ih =>
    simp only [List.cons_append, findBuild]
    split
    · rfl
    · exact ih

lemma findBuildGroups_eq_flatten (gs : List (List String)) :
    findBuildGroups gs = findBuild gs.flatten := by
  induction gs with
  | nil => rfl
  | cons g rest ih =>
    rw [List.flatten_cons, findBuild_append, findBuildGroups, ih]

lemma findBuild_eq_some {pre : List String} {c : String} {post : List String}
    (hpre : ∀ x ∈ pre, strStartsWith x "//go:build " = false)
    (hc : strStartsWith c "//go:build " = true) :
    findBuild (pre ++ c :: post) = some (strTrimLead c "//go:build ") := by
  induction pre with
  | nil => rw [List.nil_append, findBuild, if_pos hc]
  | cons x rest ih =>
    have hx := hpre x (List.mem_cons_self x rest)
    rw [List.cons_append, findBuild, if_neg (by rw [hx]; simp)]
    exact ih fun y hy => hpre y (List.mem_cons_of_mem x hy)

lemma findBuild_eq_none {l : List String}
    (h : ∀ x ∈ l, strStartsWith x "//go:build " = false) :
    findBuild l = none := by
  induction l with
  | nil => rfl
  | cons x rest ih =>
    have hx := h x (List.mem_cons_self x rest)
    rw [findBuild, if_neg (by rw [hx]; simp)]
    exact ih fun y hy => h y (List.mem_cons_of_mem x hy)

/-- C6 (amended): the constraint expression assigned to a file is the text
after `//go:build ` on the first matching comment line across ALL of the
file's comment groups, scanned in order — not only the top (leading) group;
with no matching line anywhere the file is unconditional (empty string);
and when several lines match, only the first is honored. -/
theorem extract_constraints_first_match (file : ParsedFile) :
    (∀ pre c post, file.comments.flatten = pre ++ c :: post →
      (∀ x ∈ pre, strStartsWith x "//go:build " = false) →
      strStartsWith c "//go:build " = true →
      extractBuildConstraints file = strTrimLead c "//go:build ")
    ∧ ((∀ x ∈ file.comments.flatten, strStartsWith x "//go:build " = false) →
      extractBuildConstraints file = "") := by
  constructor
  · intro pre c post hsplit hpre hc
    rw [extractBuildConstraints, findBuildGroups_eq_flatten, hsplit,
      findBuild_eq_some hpre hc]
    rfl
  · intro h
    rw [extractBuildConstraints, findBuildGroups_eq_flatten, findBuild_eq_none h]
    rfl

/-- Witness for C6 (amended): a file whose top group is a copyright line and
whose second comment group carries the constraint — the code assigns
`linux`, honoring the first matching line across all groups (and trimming
the marker). -/
theorem extract_constraints_first_match_witness :
    extractBuildConstraints ⟨[["// Copyright"], ["//go:build linux"]], ["fmt"]⟩ =
      strTrimLead "//go:build linux" "//go:build " :=
  (extract_constraints_first_match
      ⟨[["// Copyright"], ["//go:build linux"]], ["fmt"]⟩).1
    ["// Copyright"] "//go:build linux" [] (by decide) (by decide) (by decide)

/-- Counterexample to C6 as stated: the claim reads the expression off the
file's top (leading) comment group only, but the code scans every comment
group.  On a file whose top group is a copyright header and whose second
group holds `//go:build linux`, the code assigns `linux` while the claim's
top-group-only reading (`extractTopGroupOnly`) assigns the empty string. -/
theorem extract_constraints_top_group_counterexample :
    extractBuildConstraints ⟨[["// Copyright"], ["//go:build linux"]], ["fmt"]⟩ = "linux"
    ∧ extractTopGroupOnly ⟨[["// Copyright"], ["//go:build linux"]], ["fmt"]⟩ = "" := by
  constructor <;> decide

lemma string_not_lt_empty (s : String) : ¬ s < "" := by
  intro h
  have h2 : s.toList < ("" : String).toList := String.lt_iff_toList_lt.mp h
  rw [show ("" : String).toList = [] from rfl] at h2
  generalize s.toList = l at h2
  cases h2

/-! ### Claim theorems -/

/-- C4: for every module path `M` and extracted import path `p`, Prepare
excludes `p` from every group exactly when `p` carries the marker
`M ++ "/"`: a prefixed import appears in no group; a non-prefixed import of
any walked file appears in the group of that file's constraint expression;
and an import exactly equal to the bare module path `M` (no trailing
separator) is never excluded. -/
theorem prepare_self_import_exclusion (M : String) (files : List ParsedFile) :
    (∀ p, strStartsWith p (M ++ "/") = true →
      ∀ g ∈ (buildImports M files).importGroups, p ∉ g.packages)
    ∧ (∀ f ∈ files, ∀ p ∈ f.imports, strStartsWith p (M ++ "/") = false →
        ∃ g ∈ (buildImports M files).importGroups,
          g.buildConstraints = extractBuildConstraints f ∧ p ∈ g.packages)
    ∧ (∀ f ∈ files, M ∈ f.imports →
        ∃ g ∈ (buildImports M files).importGroups,
          g.buildConstraints = extractBuildConstraints f ∧ M ∈ g.packages) := by
  have retained : ∀ f ∈ files, ∀ p ∈ f.imports, strStartsWith p (M ++ "/") = false →
      ∃ g ∈ (buildImports M files).importGroups,
        g.buildConstraints = extractBuildConstraints f ∧ p ∈ g.packages := by
    intro f hf p hp hfalse
    have hkey : extractBuildConstraints f ∈ (buildImports M files).keys :=
      mem_keys_buildImports.mpr ⟨f, hf, List.ne_nil_of_mem hp, rfl⟩
    refine ⟨_, mem_importGroups.mpr ⟨_, hkey, rfl⟩, rfl, ?_⟩
    rw [Finset.mem_sort]
    exact mem_imports_buildImports.mpr ⟨f, hf, rfl, hp, hfalse⟩
  refine ⟨?_, retained, ?_⟩
  · intro p hp g hg hmem
    rw [mem_packages_of_mem_importGroups hg] at hmem
    obtain ⟨f, -, -, -, hfalse⟩ := mem_imports_buildImports.mp hmem
    rw [hp] at hfalse
    simp at hfalse
  · intro f hf hM
    exact retained f hf M hM (strStartsWith_bare M)

/-- Witness for C4 at the spec's own example: under module path
`example.com/app`, the import `example.com/app/internal/util` lands in no
group, while `golang.org/x/sys/unix` and the bare path `example.com/app`
itself are retained in the file's (unconditional) group. -/
theorem prepare_self_import_exclusion_witness :
    (∀ g ∈ (buildImports "example.com/app"
        [⟨[], ["golang.org/x/sys/unix", "example.com/app/internal/util",
               "example.com/app"]⟩]).importGroups,
      "example.com/app/internal/util" ∉ g.packages)
    ∧ (∃ g ∈ (buildImports "example.com/app"
        [⟨[], ["golang.org/x/sys/unix", "example.com/app/internal/util",
               "example.com/app"]⟩]).importGroups,
        g.buildConstraints =
          extractBuildConstraints ⟨[], ["golang.org/x/sys/unix",
            "example.com/app/internal/util", "example.com/app"]⟩ ∧
          "golang.org/x/sys/unix" ∈ g.packages)
    ∧ (∃ g ∈ (buildImports "example.com/app"
        [⟨[], ["golang.org/x/sys/unix", "example.com/app/internal/util",
               "example.com/app"]⟩]).importGroups,
        g.buildConstraints =
          extractBuildConstraints ⟨[], ["golang.org/x/sys/unix",
            "example.com/app/internal/util", "example.com/app"]⟩ ∧
          "example.com/app" ∈ g.packages) :=
  ⟨(prepare_self_import_exclusion "example.com/app" _).1
      "example.com/app/internal/util" (by decide),
   (prepare_self_import_exclusion "example.com/app" _).2.1
      _ (by simp) "golang.org/x/sys/unix" (by simp) (by decide),
   (prepare_self_import_exclusion "example.com/app" _).2.2
      _ (by simp) (by simp)⟩

/-- C5: in every recipe produced by Prepare, the group list is strictly
ascending by constraint expression (so constraints are pairwise distinct and
the empty expression, being minimal, comes first when present), each group's
package list is strictly ascending (hence duplicate-free), and every walked
file with at least one import determines exactly one group carrying its
constraint expression. -/
theorem recipe_groups_sorted_unique (M : String) (files : List ParsedFile) :
    ((buildImports M files).importGroups.map (·.buildConstraints)).Sorted (· < ·)
    ∧ (∀ g ∈ (buildImports M files).importGroups, g.packages.Sorted (· < ·))
    ∧ (∀ g ∈ (buildImports M files).importGroups, g.buildConstraints = "" →
        (buildImports M files).importGroups.head? = some g)
    ∧ (∀ f ∈ files, f.imports ≠ [] →
        ∃! g, g ∈ (buildImports M files).importGroups ∧
          g.buildConstraints = extractBuildConstraints f) := by
  have hmapsort :
      ((buildImports M files).importGroups.map (·.buildConstraints)).Sorted (· < ·) := by
    rw [ImportsBuilder.importGroups, List.map_map]
    have hcomp : ((fun g : ImportGroup => g.buildConstraints) ∘ fun bc =>
        ({ buildConstraints := bc,
           packages := ((buildImports M files).imports bc).sort (· ≤ ·) } : ImportGroup))
        = id := rfl
    rw [hcomp, List.map_id]
    exact Finset.sort_sorted_lt _
  refine ⟨hmapsort, ?_, ?_, ?_⟩
  · intro g hg
    rcases mem_importGroups.mp hg with ⟨c, -, rfl⟩
    exact Finset.sort_sorted_lt _
  · intro g hg hempty
    rcases hgs : (buildImports M files).importGroups with _ | ⟨g0, rest⟩
    · rw [hgs] at hg
      exact absurd hg (List.not_mem_nil g)
    · rw [hgs] at hg hmapsort
      rw [List.head?_cons]
      rw [List.mem_cons] at hg
      rcases hg with rfl | hg
      · rfl
      · exfalso
        rw [List.map_cons, List.sorted_cons] at hmapsort
        have hlt := hmapsort.1 g.buildConstraints
          (List.mem_map_of_mem (·.buildConstraints) hg)
        rw [hempty] at hlt
        exact string_not_lt_empty _ hlt
  · intro f hf hne
    have hkey : extractBuildConstraints f ∈ (buildImports M files).keys :=
      mem_keys_buildImports.mpr ⟨f, hf, hne, rfl⟩
    refine ⟨_, ⟨mem_importGroups.mpr ⟨_, hkey, rfl⟩, rfl⟩, ?_⟩
    rintro g' ⟨hg', hbc⟩
    rcases mem_importGroups.mp hg' with ⟨c', -, rfl⟩
    have hc' : c' = extractBuildConstraints f := hbc
    subst hc'
    rfl

/-- Two `addFile` steps commute: insertion into the grouped-set state is
order-independent, key by key. -/
lemma addFile_comm (b : ImportsBuilder) (f g : ParsedFile) :
    addFile (addFile b f) g = addFile (addFile b g) f := by
  by_cases hf : f.imports = []
  · rw [addFile_nil b hf, addFile_nil (addFile b g) hf]
  · by_cases hg : g.imports = []
    · rw [addFile_nil b hg, addFile_nil (addFile b f) hg]
    · simp only [addFile, if_neg hf, if_neg hg]
      by_cases hc : extractBuildConstraints f = extractBuildConstraints g
      · rw [hc]
        congr 1
        simp only [Function.update_same, Function.update_idem]
        rw [Finset.union_right_comm]
      · have hcg : extractBuildConstraints g ≠ extractBuildConstraints f :=
          fun h => hc h.symm
        congr 1
        · exact Finset.Insert.comm _ _ _
        · rw [Function.update_noteq hcg, Function.update_noteq hc,
            Function.update_comm hc]

lemma foldl_addFile_perm {l₁ l₂ : List ParsedFile} (h : l₁.Perm l₂)
    (b : ImportsBuilder) : l₁.foldl addFile b = l₂.foldl addFile b := by
  induction h generalizing b with
  | nil => rfl
  | cons x _ ih => simp only [List.foldl_cons]; exact ih _
  | swap x y l => simp only [List.foldl_cons]; rw [addFile_comm]
  | trans _ _ ih₁ ih₂ => rw [ih₁, ih₂]

lemma addFileResults_ok (b : ImportsBuilder) (files : List ParsedFile) :
    addFileResults b (files.map Except.ok) = .ok (files.foldl addFile b) := by
  induction files generalizing b with
  | nil => rfl
  | cons f rest ih =>
    rw [List.map_cons, List.foldl_cons, addFileResults, ih]

/-- C2 (amended): the recipe is a function of the module path, the verbatim
go.mod and go.sum texts, and the multiset of per-file (import list,
constraint) data: two Prepare runs whose walks visit the same parsed files
in any order — in particular two runs on an unchanged tree — produce equal
recipes, hence byte-identical serialized artifacts. -/
theorem prepare_deterministic (modName goMod goSum : String)
    {files₁ files₂ : List ParsedFile} (h : files₁.Perm files₂) :
    runPrepare modName goMod goSum (files₁.map Except.ok) =
      runPrepare modName goMod goSum (files₂.map Except.ok) := by
  rw [runPrepare, runPrepare, addFileResults_ok, addFileResults_ok,
    foldl_addFile_perm h]

/-- Witness for C2 (amended): swapping the visitation order of two files
leaves the recipe unchanged. -/
theorem prepare_deterministic_witness :
    runPrepare "m" "module m\n" ""
        ([⟨[], ["a"]⟩, ⟨[["//go:build linux"]], ["b"]⟩].map Except.ok) =
      runPrepare "m" "module m\n" ""
        ([⟨[["//go:build linux"]], ["b"]⟩, ⟨[], ["a"]⟩].map Except.ok) :=
  prepare_deterministic "m" "module m\n" "" (List.Perm.swap _ _ _)

/-- An empty walk yields the recipe with no groups and the verbatim module
descriptor and lock-file texts. -/
lemma runPrepare_nil (modName goMod goSum : String) :
    runPrepare modName goMod goSum [] =
      .ok { importGroups := [], goMod := goMod, goSum := goSum } := by
  rw [runPrepare]
  simp [addFileResults, ImportsBuilder.importGroups, newImportsBuilder,
    Except.map]

/-- Counterexample to C2 as stated: the recipe is not a function of *only*
the module path and the per-file import/constraint tuples — it also embeds
the go.mod and go.sum texts verbatim.  Two runs that agree on the module
path (`m`) and on the (empty) tuple set but differ in go.sum content
produce different recipes. -/
theorem prepare_only_module_path_counterexample :
    runPrepare "m" "module m\n" "" [] ≠
      runPrepare "m" "module m\n" "sum content\n" [] := by
  rw [runPrepare_nil, runPrepare_nil]
  simp

lemma addFileResults_error :
    ∀ (walked : List (Except String ParsedFile)) (b : ImportsBuilder),
      (∃ e, Except.error e ∈ walked) →
      ∃ e', addFileResults b walked = .error e' := by
  intro walked
  induction walked with
  | nil =>
    rintro b ⟨e, he⟩
    cases he
  | cons x rest ih =>
    rintro b ⟨e, he⟩
    cases x with
    | error e2 => exact ⟨e2, rfl⟩
    | ok f =>
      rw [List.mem_cons] at he
      rcases he with h1 | h2
      · simp at h1
      · exact ih (addFile b f) ⟨e, h2⟩

/-- C8: a parse failure anywhere in the walk makes Prepare return an error:
the recipe construction is never reached and the output path is untouched
(main.go:185 writes the recipe only after `fs.WalkDir` returned nil). -/
theorem prepare_aborts_on_parse_error (modName goMod goSum : String)
    (walked : List (Except String ParsedFile))
    (h : ∃ e, Except.error e ∈ walked) :
    ∃ e', runPrepare modName goMod goSum walked = .error e' := by
  obtain ⟨e', he'⟩ := addFileResults_error walked _ h
  exact ⟨e', by rw [runPrepare, he']; rfl⟩

/-- Witness for C8: a walk whose second file fails to parse yields an error
result. -/
theorem prepare_aborts_on_parse_error_witness :
    ∃ e', runPrepare "m" "module m\n" ""
        [Except.ok ⟨[], ["fmt"]⟩, Except.error "failed to parse file"] = .error e' :=
  prepare_aborts_on_parse_error "m" "module m\n" "" _
    ⟨"failed to parse file", by simp⟩

/-- Witness for C5: the spec's end-to-end example — an unconditional file
importing `fmt` (plus a self-import) and a `linux`-constrained file
importing `golang.org/x/sys/unix` — instantiates every conjunct. -/
theorem recipe_groups_sorted_unique_witness :
    (((buildImports "example.com/app"
        [⟨[], ["fmt", "example.com/app/internal/util"]⟩,
         ⟨[["//go:build linux"]], ["golang.org/x/sys/unix"]⟩]).importGroups.map
          (·.buildConstraints)).Sorted (· < ·))
    ∧ (∃! g, g ∈ (buildImports "example.com/app"
        [⟨[], ["fmt", "example.com/app/internal/util"]⟩,
         ⟨[["//go:build linux"]], ["golang.org/x/sys/unix"]⟩]).importGroups ∧
        g.buildConstraints =
          extractBuildConstraints ⟨[["//go:build linux"]], ["golang.org/x/sys/unix"]⟩) :=
  ⟨(recipe_groups_sorted_unique "example.com/app" _).1,
   (recipe_groups_sorted_unique "example.com/app" _).2.2.2
      _ (by simp) (by simp)⟩

/-! ### Cook-phase lemmas -/

lemma length_cookFilesAux (i : Nat) (gs : List ImportGroup) :
    (cookFilesAux i gs).length = gs.length := by
  induction gs generalizing i with
  | nil => rfl
  | cons g rest ih => simp [cookFilesAux, ih]

lemma get_cookFilesAux (i : Nat) (gs : List ImportGroup) (j : Nat)
    (h : j < gs.length) (h' : j < (cookFilesAux i gs).length) :
    (cookFilesAux i gs).get ⟨j, h'⟩ = cookFile (i + j) (gs.get ⟨j, h⟩) := by
  induction gs generalizing i j with
  | nil => exact absurd h (by simp)
  | cons g rest ih =>
    cases j with
    | zero => rfl
    | succ j =>
      have hj : j < rest.length := Nat.lt_of_succ_lt_succ h
      have hj' : j < (cookFilesAux (i + 1) rest).length := by
        rw [length_cookFilesAux]; exact hj
      show (cookFilesAux (i + 1) rest).get ⟨j, hj'⟩ = _
      rw [ih (i + 1) j hj hj']
      show cookFile (i + 1 + j) _ = cookFile (i + (j + 1)) _
      congr 1
      omega

lemma pkgName_cookFilesAux (i : Nat) (gs : List ImportGroup) :
    ∀ f ∈ cookFilesAux i gs, f.pkgName = "main" := by
  induction gs generalizing i with
  | nil => simp [cookFilesAux]
  | cons g rest ih =>
    intro f hf
    rw [cookFilesAux, List.mem_cons] at hf
    rcases hf with rfl | hf
    · rfl
    · exact ih (i + 1) f hf

lemma countP_entry_cookFilesAux_pos (gs : List ImportGroup) :
    ∀ i : Nat, 0 < i → (cookFilesAux i gs).countP (·.hasEntryPoint) = 0 := by
  induction gs with
  | nil => intro i _; rfl
  | cons g rest ih =>
    intro i hi
    rw [cookFilesAux, List.countP_cons, ih (i + 1) (by omega)]
    have : (cookFile i g).hasEntryPoint = false := by
      simp only [cookFile]
      simp [Nat.ne_of_gt hi]
    simp [this]

lemma countP_entry_cookFiles (r : Recipe) (h : r.importGroups ≠ []) :
    (cookFiles r).countP (·.hasEntryPoint) = 1 := by
  rw [cookFiles]
  rcases hgs : r.importGroups with _ | ⟨g, rest⟩
  · exact absurd hgs h
  · rw [cookFilesAux, List.countP_cons,
      countP_entry_cookFilesAux_pos rest 1 (by omega)]
    simp [cookFile]

lemma filename_starts_main (i : Nat) (g : ImportGroup) :
    strStartsWith (cookFile i g).filename "main" = true := by
  by_cases h : i = 0
  · subst h
    show strStartsWith "main.go" "main" = true
    decide
  · show strStartsWith (if i = 0 then "main.go" else "main" ++ toString i ++ ".go")
      "main" = true
    rw [if_neg h, strStartsWith]
    refine List.isPrefixOf_iff_prefix.mpr ?_
    rw [String.data_append, String.data_append, List.append_assoc]
    exact List.prefix_append _ _

lemma cookFile_filename_ne (i : Nat) (g : ImportGroup) :
    (cookFile i g).filename ≠ "go.mod" ∧ (cookFile i g).filename ≠ "go.sum" := by
  constructor <;>
  · intro h
    have hs := filename_starts_main i g
    rw [h] at hs
    exact absurd hs (by decide)

/-! ### File-system lemmas -/

lemma fsLookup_write (fs : FS) (n c p : String) :
    fsLookup (fsWrite fs n c) p = if p = n then some c else fsLookup fs p := by
  by_cases h : p = n
  · subst h
    simp [fsWrite, fsLookup]
  · rw [if_neg h]
    simp only [fsWrite, fsLookup]
    rw [List.find?_cons_of_neg _ (by simp [Ne.symm h])]

lemma find?_key_filter_self (fs : FS) (n : String) :
    (fs.filter fun e => e.1 != n).find? (fun e => e.1 == n) = none := by
  induction fs with
  | nil => rfl
  | cons e rest ih =>
    by_cases hn : e.1 = n
    · rw [List.filter_cons, if_neg (by simp [hn])]
      exact ih
    · rw [List.filter_cons, if_pos (by simp [hn]),
        List.find?_cons_of_neg _ (by simp [hn])]
      exact ih

lemma find?_key_filter_ne (fs : FS) (n p : String) (h : p ≠ n) :
    (fs.filter fun e => e.1 != n).find? (fun e => e.1 == p) =
      fs.find? (fun e => e.1 == p) := by
  induction fs with
  | nil => rfl
  | cons e rest ih =>
    by_cases he : e.1 = p
    · rw [List.filter_cons, if_pos (by simp [he, h]),
        List.find?_cons_of_pos _ (by simp [he]),
        List.find?_cons_of_pos _ (by simp [he])]
    · by_cases hn : e.1 = n
      · rw [List.filter_cons, if_neg (by simp [hn]), ih,
          List.find?_cons_of_neg _ (by simp [he])]
      · rw [List.filter_cons, if_pos (by simp [hn]),
          List.find?_cons_of_neg _ (by simp [he]),
          List.find?_cons_of_neg _ (by simp [he])]
        exact ih

lemma fsLookup_remove (fs : FS) (n p : String) :
    fsLookup (fsRemove fs n) p = if p = n then none else fsLookup fs p := by
  by_cases h : p = n
  · subst h
    rw [if_pos rfl]
    simp only [fsLookup, fsRemove, find?_key_filter_self]
    rfl
  · rw [if_neg h]
    simp only [fsLookup, fsRemove, find?_key_filter_ne fs n p h]

lemma writeFold_ne (files : List SynthFile) (fs : FS) (p : String)
    (hp : ∀ f ∈ files, f.filename ≠ p) :
    fsLookup (files.foldl (fun fs f => fsWrite fs f.filename (renderSynth f)) fs) p =
      fsLookup fs p := by
  induction files generalizing fs with
  | nil => rfl
  | cons f rest ih =>
    rw [List.foldl_cons, ih _ (fun g hg => hp g (List.mem_cons_of_mem f hg)),
      fsLookup_write, if_neg (fun hh => hp f (List.mem_cons_self f rest) hh.symm)]

lemma writeFold_present (files : List SynthFile) (fs : FS) (n : String)
    (h : ∃ f ∈ files, f.filename = n) :
    (fsLookup (files.foldl (fun fs f => fsWrite fs f.filename (renderSynth f)) fs) n).isSome
      = true := by
  induction files generalizing fs with
  | nil =>
    rcases h with ⟨f, hf, -⟩
    exact absurd hf (List.not_mem_nil f)
  | cons f rest ih =>
    rw [List.foldl_cons]
    by_cases hr : ∃ g ∈ rest, g.filename = n
    · exact ih _ hr
    · rcases h with ⟨g, hg, hgn⟩
      rw [List.mem_cons] at hg
      rcases hg with rfl | hg
      · rw [writeFold_ne rest _ n (fun g' hg' hn' => hr ⟨g', hg', hn'⟩),
          fsLookup_write, if_pos hgn.symm]
        rfl
      · exact absurd ⟨g, hg, hgn⟩ hr

lemma removeFold_errs (removeOk : String → Bool) (names : List String)
    (fs : FS) (errs : List String) :
    (names.foldl (removeStep removeOk) (fs, errs)).2 =
      errs ++ names.filter (fun nm => !removeOk nm) := by
  induction names generalizing fs errs with
  | nil => simp
  | cons nm rest ih =>
    rw [List.foldl_cons, removeStep]
    by_cases h : removeOk nm = true
    · rw [if_pos h, ih, List.filter_cons]
      simp [h]
    · have hf : removeOk nm = false := by revert h; cases removeOk nm <;> simp
      rw [if_neg h, ih, List.filter_cons]
      simp [hf]

lemma removeFold_preserve_none (removeOk : String → Bool) (names : List String)
    (fs : FS) (errs : List String) (n : String) (h : fsLookup fs n = none) :
    fsLookup (names.foldl (removeStep removeOk) (fs, errs)).1 n = none := by
  induction names generalizing fs errs with
  | nil => exact h
  | cons nm rest ih =>
    rw [List.foldl_cons, removeStep]
    by_cases hok : removeOk nm = true
    · rw [if_pos hok]
      refine ih _ _ ?_
      rw [fsLookup_remove]
      by_cases hn : n = nm
      · rw [if_pos hn]
      · rw [if_neg hn]; exact h
    · rw [if_neg hok]
      exact ih _ _ h

lemma removeFold_removes (removeOk : String → Bool) (names : List String)
    (fs : FS) (errs : List String) (n : String) (hn : n ∈ names)
    (hok : removeOk n = true) :
    fsLookup (names.foldl (removeStep removeOk) (fs, errs)).1 n = none := by
  induction names generalizing fs errs with
  | nil => exact absurd hn (List.not_mem_nil n)
  | cons nm rest ih =>
    rw [List.mem_cons] at hn
    rw [List.foldl_cons, removeStep]
    rcases hn with rfl | hn
    · rw [if_pos hok]
      exact removeFold_preserve_none _ _ _ _ _ (by rw [fsLookup_remove, if_pos rfl])
    · by_cases hok2 : removeOk nm = true
      · rw [if_pos hok2]
        exact ih _ _ hn
      · rw [if_neg hok2]
        exact ih _ _ hn

lemma removeFold_ne (removeOk : String → Bool) (names : List String)
    (fs : FS) (errs : List String) (p : String) (hp : p ∉ names) :
    fsLookup (names.foldl (removeStep removeOk) (fs, errs)).1 p = fsLookup fs p := by
  induction names generalizing fs errs with
  | nil => rfl
  | cons nm rest ih =>
    have hpn : p ≠ nm := fun h => hp (h ▸ List.mem_cons_self nm rest)
    have hpr : p ∉ rest := fun h => hp (List.mem_cons_of_mem nm h)
    rw [List.foldl_cons, removeStep]
    by_cases hok : removeOk nm = true
    · rw [if_pos hok, ih _ _ hpr, fsLookup_remove, if_neg hpn]
    · rw [if_neg hok]
      exact ih _ _ hpr

lemma mem_cookFilesAux_shape :
    ∀ (i : Nat) (gs : List ImportGroup) (f : SynthFile),
      f ∈ cookFilesAux i gs → ∃ j g, f = cookFile j g := by
  intro i gs
  induction gs generalizing i with
  | nil => intro f hf; exact absurd hf (List.not_mem_nil f)
  | cons g rest ih =>
    intro f hf
    rw [cookFilesAux, List.mem_cons] at hf
    rcases hf with rfl | hf
    · exact ⟨i, g, rfl⟩
    · exact ih (i + 1) f hf

lemma runCook_false (fs0 : FS) (r : Recipe) (removeOk : String → Bool) :
    runCook fs0 r false removeOk =
      ((cookFiles r).foldl (fun fs f => fsWrite fs f.filename (renderSynth f))
        (fsWrite (fsWrite fs0 "go.mod" r.goMod) "go.sum" r.goSum),
       some .buildError) := rfl

lemma runCook_true (fs0 : FS) (r : Recipe) (removeOk : String → Bool) :
    runCook fs0 r true removeOk =
      ((((cookFiles r).map (·.filename)).foldl (removeStep removeOk)
          ((cookFiles r).foldl (fun fs f => fsWrite fs f.filename (renderSynth f))
            (fsWrite (fsWrite fs0 "go.mod" r.goMod) "go.sum" r.goSum), [])).1,
       if (((cookFiles r).map (·.filename)).foldl (removeStep removeOk)
            ((cookFiles r).foldl (fun fs f => fsWrite fs f.filename (renderSynth f))
              (fsWrite (fsWrite fs0 "go.mod" r.goMod) "go.sum" r.goSum), [])).2 = []
       then none
       else some (.cleanupError
          ((((cookFiles r).map (·.filename)).foldl (removeStep removeOk)
            ((cookFiles r).foldl (fun fs f => fsWrite fs f.filename (renderSynth f))
              (fsWrite (fsWrite fs0 "go.mod" r.goMod) "go.sum" r.goSum), [])).2))) := rfl

/-- C7: for a recipe with at least one group, Cook generates exactly one
synthetic file per group; all declare package `main`; a file carries a
`//go:build` header exactly when its group's constraint expression is
non-empty; each file blank-imports exactly its group's packages; the file of
group `j` is named `main.go` for `j = 0` and `main<j>.go` otherwise; and
exactly one generated file — the one of the first group — carries the no-op
entry point. -/
theorem cook_one_file_per_group (r : Recipe) (h : r.importGroups ≠ []) :
    (cookFiles r).length = r.importGroups.length
    ∧ (∀ f ∈ cookFiles r, f.pkgName = "main")
    ∧ (∀ (j : Nat) (hj : j < r.importGroups.length)
        (hj' : j < (cookFiles r).length),
        ((cookFiles r).get ⟨j, hj'⟩).buildHeader =
          (if (r.importGroups.get ⟨j, hj⟩).buildConstraints = "" then none
           else some (r.importGroups.get ⟨j, hj⟩).buildConstraints)
        ∧ ((cookFiles r).get ⟨j, hj'⟩).blankImports =
            (r.importGroups.get ⟨j, hj⟩).packages
        ∧ (((cookFiles r).get ⟨j, hj'⟩).hasEntryPoint = true ↔ j = 0)
        ∧ ((cookFiles r).get ⟨j, hj'⟩).filename =
            (if j = 0 then "main.go" else "main" ++ toString j ++ ".go"))
    ∧ (cookFiles r).countP (·.hasEntryPoint) = 1 := by
  refine ⟨?_, pkgName_cookFilesAux 0 r.importGroups, ?_, countP_entry_cookFiles r h⟩
  · rw [cookFiles, length_cookFilesAux]
  · intro j hj hj'
    simp only [cookFiles] at hj' ⊢
    rw [get_cookFilesAux 0 r.importGroups j hj hj', Nat.zero_add]
    refine ⟨rfl, rfl, ?_, rfl⟩
    simp [cookFile]

/-- Witness for C7 on a two-group recipe (unconditional `fmt` group plus a
`linux` group): two files, one entry point. -/
theorem cook_one_file_per_group_witness :
    (cookFiles ⟨[⟨"", ["fmt"]⟩, ⟨"linux", ["golang.org/x/sys/unix"]⟩],
        "module m\n", ""⟩).length =
      (⟨[⟨"", ["fmt"]⟩, ⟨"linux", ["golang.org/x/sys/unix"]⟩],
        "module m\n", ""⟩ : Recipe).importGroups.length
    ∧ (cookFiles ⟨[⟨"", ["fmt"]⟩, ⟨"linux", ["golang.org/x/sys/unix"]⟩],
        "module m\n", ""⟩).countP (·.hasEntryPoint) = 1 :=
  ⟨(cook_one_file_per_group _ (by simp)).1,
   (cook_one_file_per_group _ (by simp)).2.2.2⟩

/-- C1 (amended): Cook runs its cleanup loop only after a successful build.
On build failure it returns a BuildError immediately, with every
synthesized file still present in the working directory.  On build success,
removal is attempted for every synthesized file; a file whose removal
succeeds is gone even if other removals fail, and the removal failures are
collected, in order, into one aggregate error (none when all removals
succeed). -/
theorem cook_cleanup_semantics (fs0 : FS) (r : Recipe) (removeOk : String → Bool) :
    ((runCook fs0 r false removeOk).2 = some .buildError)
    ∧ (∀ n ∈ (cookFiles r).map (·.filename),
        (fsLookup (runCook fs0 r false removeOk).1 n).isSome = true)
    ∧ (∀ n ∈ (cookFiles r).map (·.filename), removeOk n = true →
        fsLookup (runCook fs0 r true removeOk).1 n = none)
    ∧ ((runCook fs0 r true removeOk).2 =
        if ((cookFiles r).map (·.filename)).filter (fun nm => !removeOk nm) = []
        then none
        else some (.cleanupError
          (((cookFiles r).map (·.filename)).filter (fun nm => !removeOk nm)))) := by
  refine ⟨rfl, ?_, ?_, ?_⟩
  · intro n hn
    obtain ⟨f, hf, rfl⟩ := List.mem_map.mp hn
    rw [runCook_false]
    exact writeFold_present _ _ _ ⟨f, hf, rfl⟩
  · intro n hn hok
    rw [runCook_true]
    exact removeFold_removes removeOk _ _ _ n hn hok
  · rw [runCook_true]
    rw [removeFold_errs, List.nil_append]

/-- Counterexample to C1 as stated: after a failed build of the one-group
recipe `{fmt}`, the synthesized `main.go` is still present (its removal was
never attempted) and the returned error is the bare BuildError, not an
aggregate with cleanup results — the code returns at main.go:118 before the
cleanup loop. -/
theorem cook_cleanup_on_failure_counterexample :
    (runCook [] ⟨[⟨"", ["fmt"]⟩], "module m\n", ""⟩ false (fun _ => true)).2 =
        some .buildError
    ∧ fsLookup (runCook [] ⟨[⟨"", ["fmt"]⟩], "module m\n", ""⟩ false
          (fun _ => true)).1 "main.go" =
        some (renderSynth (cookFile 0 ⟨"", ["fmt"]⟩)) := by
  constructor <;> rfl

/-- Witness for C1 (amended): on the same one-group recipe with a successful
build and all removals succeeding, `main.go` is removed and no error is
returned. -/
theorem cook_cleanup_semantics_witness :
    fsLookup (runCook [] ⟨[⟨"", ["fmt"]⟩], "module m\n", ""⟩ true
        (fun _ => true)).1 "main.go" = none
    ∧ (runCook [] ⟨[⟨"", ["fmt"]⟩], "module m\n", ""⟩ true (fun _ => true)).2 =
        none :=
  ⟨(cook_cleanup_semantics [] ⟨[⟨"", ["fmt"]⟩], "module m\n", ""⟩
        (fun _ => true)).2.2.1 "main.go" (by decide) rfl,
   by
    rw [(cook_cleanup_semantics [] ⟨[⟨"", ["fmt"]⟩], "module m\n", ""⟩
        (fun _ => true)).2.2.2]
    rfl⟩

/-- C3 (amended): on a recipe with zero import groups, Cook still writes the
module descriptor and lock file verbatim into the working directory and
invokes the external build command, but it synthesizes no source files at
all — in particular no file with the no-op entry point exists, so there is
no generated no-op program for the build to compile (with the standard Go
toolchain, `go build .` in a directory without Go files fails). -/
theorem cook_empty_recipe_behavior (fs0 : FS) (goMod goSum : String)
    (removeOk : String → Bool) :
    cookFiles ⟨[], goMod, goSum⟩ = []
    ∧ (∀ buildOk,
        fsLookup (runCook fs0 ⟨[], goMod, goSum⟩ buildOk removeOk).1 "go.mod" =
          some goMod)
    ∧ (∀ buildOk,
        fsLookup (runCook fs0 ⟨[], goMod, goSum⟩ buildOk removeOk).1 "go.sum" =
          some goSum)
    ∧ (runCook fs0 ⟨[], goMod, goSum⟩ true removeOk).2 = none
    ∧ (runCook fs0 ⟨[], goMod, goSum⟩ false removeOk).2 = some .buildError := by
  refine ⟨rfl, ?_, ?_, rfl, rfl⟩
  · intro buildOk
    cases buildOk <;> rfl
  · intro buildOk
    cases buildOk <;> rfl

/-- Counterexample to C3 as stated: the zero-group recipe makes Cook
generate zero synthetic files, so no generated file carries the no-op entry
point the claim says gets built. -/
theorem cook_empty_recipe_counterexample :
    cookFiles ⟨[], "module m\n", ""⟩ = []
    ∧ (cookFiles ⟨[], "module m\n", ""⟩).countP (·.hasEntryPoint) = 0 :=
  ⟨rfl, rfl⟩

/-- C10: when Cook returns successfully, its cleanup has removed exactly the
synthetic source files it generated: go.mod and go.sum hold the recipe's
texts and remain present, every generated file is gone, and every other
path of the working directory is untouched. -/
theorem cook_removes_only_synth_files (fs0 : FS) (r : Recipe)
    (removeOk : String → Bool)
    (hsucc : (runCook fs0 r true removeOk).2 = none) :
    fsLookup (runCook fs0 r true removeOk).1 "go.mod" = some r.goMod
    ∧ fsLookup (runCook fs0 r true removeOk).1 "go.sum" = some r.goSum
    ∧ (∀ n ∈ (cookFiles r).map (·.filename),
        fsLookup (runCook fs0 r true removeOk).1 n = none)
    ∧ (∀ p, p ∉ (cookFiles r).map (·.filename) → p ≠ "go.mod" → p ≠ "go.sum" →
        fsLookup (runCook fs0 r true removeOk).1 p = fsLookup fs0 p) := by
  have hshape : ∀ f ∈ cookFiles r, f.filename ≠ "go.mod" ∧ f.filename ≠ "go.sum" := by
    intro f hf
    obtain ⟨j, g, rfl⟩ := mem_cookFilesAux_shape 0 r.importGroups f hf
    exact cookFile_filename_ne j g
  have hall : ∀ n ∈ (cookFiles r).map (·.filename), removeOk n = true := by
    rw [runCook_true] at hsucc
    simp only at hsucc
    by_cases hres : (((cookFiles r).map (·.filename)).foldl (removeStep removeOk)
        ((cookFiles r).foldl (fun fs f => fsWrite fs f.filename (renderSynth f))
          (fsWrite (fsWrite fs0 "go.mod" r.goMod) "go.sum" r.goSum), [])).2 = []
    · rw [removeFold_errs, List.nil_append] at hres
      intro n hn
      have := List.filter_eq_nil_iff.mp hres n hn
      revert this
      cases removeOk n <;> simp
    · rw [if_neg hres] at hsucc
      exact absurd hsucc (by simp)
  have hmodmem : "go.mod" ∉ (cookFiles r).map (·.filename) := by
    intro hmem
    obtain ⟨f, hf, hfn⟩ := List.mem_map.mp hmem
    exact (hshape f hf).1 hfn
  have hsummem : "go.sum" ∉ (cookFiles r).map (·.filename) := by
    intro hmem
    obtain ⟨f, hf, hfn⟩ := List.mem_map.mp hmem
    exact (hshape f hf).2 hfn
  refine ⟨?_, ?_, ?_, ?_⟩
  · rw [runCook_true]
    rw [removeFold_ne _ _ _ _ _ hmodmem,
      writeFold_ne _ _ _ (fun f hf => (hshape f hf).1),
      fsLookup_write, if_neg (by decide), fsLookup_write, if_pos rfl]
  · rw [runCook_true]
    rw [removeFold_ne _ _ _ _ _ hsummem,
      writeFold_ne _ _ _ (fun f hf => (hshape f hf).2),
      fsLookup_write, if_pos rfl]
  · intro n hn
    rw [runCook_true]
    exact removeFold_removes removeOk _ _ _ n hn (hall n hn)
  · intro p hp hpmod hpsum
    rw [runCook_true]
    rw [removeFold_ne _ _ _ _ _ hp,
      writeFold_ne _ _ _
        (fun f hf hfp => hp (by rw [← hfp]; exact List.mem_map_of_mem _ hf)),
      fsLookup_write, if_neg hpsum, fsLookup_write, if_neg hpmod]

/-- Witness for C10 on the one-group recipe `{fmt}` with a successful build
and successful removals: go.mod and go.sum remain with the recipe's texts,
and the generated `main.go` is gone. -/
theorem cook_removes_only_synth_files_witness :
    fsLookup (runCook [] ⟨[⟨"", ["fmt"]⟩], "module m\n", "sums\n"⟩ true
        (fun _ => true)).1 "go.mod" = some "module m\n"
    ∧ fsLookup (runCook [] ⟨[⟨"", ["fmt"]⟩], "module m\n", "sums\n"⟩ true
        (fun _ => true)).1 "go.sum" = some "sums\n"
    ∧ fsLookup (runCook [] ⟨[⟨"", ["fmt"]⟩], "module m\n", "sums\n"⟩ true
        (fun _ => true)).1 "main.go" = none :=
  ⟨(cook_removes_only_synth_files [] ⟨[⟨"", ["fmt"]⟩], "module m\n", "sums\n"⟩
      (fun _ => true) (by rfl)).1,
   (cook_removes_only_synth_files [] ⟨[⟨"", ["fmt"]⟩], "module m\n", "sums\n"⟩
      (fun _ => true) (by rfl)).2.1,
   (cook_removes_only_synth_files [] ⟨[⟨"", ["fmt"]⟩], "module m\n", "sums\n"⟩
      (fun _ => true) (by rfl)).2.2.1 "main.go" (by decide)⟩

end GoChef
